import Mathlib

/-!
Verification of the prompt-templating core of the repository: the placeholder
scanner `parseVariables` and the merger `mergePrompt` from
`src/utils/promptUtils.ts`, the editor state transitions from
`src/components/PromptEditor/PromptEditor.tsx` (reconciliation effect,
`handleSavePrompt`, `handleLoadPrompt`), and the completion client
`callOpenAIApi` from `src/api/openaiApi.ts`.

JavaScript strings are modelled as Lean `String` or `List Char`; JavaScript
objects used as string-to-string maps are modelled as association lists in
enumeration order.  The behaviour of the JavaScript builtins the code calls
(`RegExp` construction, `String.prototype.replace` with a global regex and a
replacement string containing dollar sequences, `String.prototype.match`)
is modelled from the ECMAScript specification, restricted to the shapes of
patterns the code actually builds; each model notes its scope.
-/

/-- The character `\x7b` (opening brace), written via its code point. -/
def lbrace : Char := Char.ofNat 123

/-- The character `\x7d` (closing brace), written via its code point. -/
def rbrace : Char := Char.ofNat 125

/-- The backquote character (code point 96), used by the `$`-sequence that
inserts the portion of the subject string preceding a match. -/
def bquote : Char := Char.ofNat 96

/-- The single-quote character (code point 39), used by the `$`-sequence that
inserts the portion of the subject string following a match. -/
def squote : Char := Char.ofNat 39

/-- A JavaScript regex word character, i.e. what `\w` matches without the `u`
flag: `[A-Za-z0-9_]`.  `Char.isAlpha` and `Char.isDigit` are ASCII-only. -/
def isWordChar (c : Char) : Bool :=
  c.isAlpha || c.isDigit || c = '_'

/-- The list of full matches of the JavaScript regex `/{(\w+)}/g` in the
input, with the surrounding braces already stripped (the source applies
`match.substring(1, match.length - 1)` to each match).

Modelled from `prompt.match(variableRegex)` in `parseVariables`
(`src/utils/promptUtils.ts`): the regex engine scans left to right; at a
position holding `\x7b` it takes the maximal nonempty run of word characters
and requires `\x7d` immediately after (the greedy `\w+` cannot succeed with a
shorter run, because every shorter run is followed by a word character, not
`\x7d`); on failure the engine retries at the next position, and on success it
continues after the match.  This function instead always advances one
position, which yields the same match list: no match can start strictly
inside another, since the interior of a match contains no `\x7b`. -/
def scanAux : List Char → List String
  | [] => []
  | c :: rest =>
    (if c = lbrace then
      (let run := rest.takeWhile isWordChar
       match rest.drop run.length with
       | c2 :: _ => if c2 = rbrace ∧ run ≠ [] then [String.mk run] else []
       | [] => [])
     else []) ++ scanAux rest

/-- First-occurrence deduplication, keeping the order of first appearance:
the model of `Array.from(new Set(variables))` in `parseVariables`. -/
def dedupAux (seen : List String) : List String → List String
  | [] => []
  | x :: xs => if x ∈ seen then dedupAux seen xs else x :: dedupAux (x :: seen) xs

/-- Model of `parseVariables` (`src/utils/promptUtils.ts`, lines 8-17):
collect all matches of `/{(\w+)}/g`, strip the braces, and deduplicate
keeping first appearances.  Returns `[]` when there is no match. -/
def parseVariables (prompt : String) : List String :=
  dedupAux [] (scanAux prompt.data)

/-- Model of ECMAScript `GetSubstitution` for a replacement string used with
a pattern that has no capture groups and no named groups (the patterns the
merger builds have neither): `$$` yields `$`, `$&` yields the matched text,
a `$` followed by the backquote character yields the part of the subject
before the match, `$'` yields the part after the match, and every other `$`
(including `$` before digits, since there are no capture groups, and `$<`,
since there are no named groups) is literal. -/
def expandRepl (matched pre post : List Char) : List Char → List Char
  | [] => []
  | [c] => [c]
  | c :: d :: rest2 =>
    if c = '$' then
      if d = '$' then '$' :: expandRepl matched pre post rest2
      else if d = '&' then matched ++ expandRepl matched pre post rest2
      else if d = bquote then pre ++ expandRepl matched pre post rest2
      else if d = squote then post ++ expandRepl matched pre post rest2
      else '$' :: expandRepl matched pre post (d :: rest2)
    else c :: expandRepl matched pre post (d :: rest2)

/-- Model of `subject.replace(regex, repl)` for a global regex denoting the
literal nonempty string `patHead :: patTail` (the compiled form of the
merger's patterns, see `regexCompiles`): scan the subject left to right; at
each position where the pattern is a prefix, emit the expansion of the
replacement string (with the matched text, the subject prefix before the
match and the subject suffix after the match feeding the dollar sequences)
and skip past the match without rescanning its interior; elsewhere copy one
character.  `pre` accumulates the subject characters already passed, and
`skip` counts characters of a match still to be passed over. -/
def jsReplaceAux (patHead : Char) (patTail repl : List Char) :
    List Char → Nat → List Char → List Char
  | _, _, [] => []
  | pre, Nat.succ n, c :: rest => jsReplaceAux patHead patTail repl (pre ++ [c]) n rest
  | pre, 0, c :: rest =>
    if (patHead :: patTail).isPrefixOf (c :: rest) then
      expandRepl (patHead :: patTail) pre ((c :: rest).drop (patTail.length + 1)) repl
        ++ jsReplaceAux patHead patTail repl (pre ++ [c]) patTail.length rest
    else
      c :: jsReplaceAux patHead patTail repl (pre ++ [c]) 0 rest

/-- Model of whether `new RegExp("\x7b" ++ name ++ "\x7d", "g")` succeeds,
for the patterns `mergePrompt` builds.  For a name made of word characters
the pattern's characters are all literal, except that a nonempty all-digit
name makes the whole pattern a braced quantifier with nothing to repeat,
which is a SyntaxError (ECMAScript Annex B, `ExtendedAtom ::
InvalidBracedQuantifier` is an early error); when compilation succeeds the
regex denotes exactly the literal string `\x7b name \x7d`.  Names containing
non-word characters can be special regex syntax and are outside the scope of
this model (the application only ever passes names produced by
`parseVariables`, which are word-only); the model reports failure for them,
which is accurate for instance for `(`, `)` or `[` (unterminated group or
class). -/
def regexCompiles (name : String) : Bool :=
  name.data.all isWordChar && (name.data.isEmpty || !(name.data.all Char.isDigit))

/-- Model of `mergePrompt` (`src/utils/promptUtils.ts`, lines 26-36): fold
over the own enumerable keys of `variableValues` in enumeration order
(modelled as the association list order); for each key build the global
regex `\x7b key \x7d` — a throwing `new RegExp` aborts the whole call, which
the model renders as `Except.error` — and replace every match in the
accumulated string by the value, with replacement-string dollar sequences
interpreted. -/
def mergePrompt (prompt : String) (variableValues : List (String × String)) :
    Except String String :=
  variableValues.foldl
    (fun merged kv =>
      match merged with
      | Except.error e => Except.error e
      | Except.ok s =>
        if regexCompiles kv.1 then
          Except.ok (String.mk (jsReplaceAux lbrace (kv.1.data ++ [rbrace]) kv.2.data [] 0 s.data))
        else Except.error "SyntaxError: Invalid regular expression")
    (Except.ok prompt)

instance {e a : Type} [DecidableEq e] [DecidableEq a] : DecidableEq (Except e a) := fun x y =>
  match x, y with
  | Except.error u, Except.error v =>
    if h : u = v then isTrue (by rw [h]) else isFalse (fun hh => h (Except.error.inj hh))
  | Except.error _, Except.ok _ => isFalse (fun hh => Except.noConfusion hh)
  | Except.ok _, Except.error _ => isFalse (fun hh => Except.noConfusion hh)
  | Except.ok u, Except.ok v =>
    if h : u = v then isTrue (by rw [h]) else isFalse (fun hh => h (Except.ok.inj hh))

/-- First-match lookup in an association list: the model of reading property
`key` of a JavaScript object whose own enumerable properties, in enumeration
order, are the list entries (the model keeps keys unique, so first match and
last assignment agree). -/
def lookupA : List (String × String) → String → Option String
  | [], _ => none
  | kv :: rest, key => if kv.1 = key then some kv.2 else lookupA rest key

/-- Model of `obj[k] = v` on a JavaScript object: assigning an existing key
updates it in place keeping its position, a fresh key is appended. -/
def objInsert (m : List (String × String)) (k v : String) : List (String × String) :=
  if m.any (fun p => p.1 == k) then
    m.map (fun p => if p.1 = k then (k, v) else p)
  else m ++ [(k, v)]

/-- Model of building a JavaScript object from `{}` by successive
assignments `obj[k] = v` over a list of pairs. -/
def objOfPairs (ps : List (String × String)) : List (String × String) :=
  ps.foldl (fun m kv => objInsert m kv.1 kv.2) []

/-- Model of the `PromptVariable` interface
(`src/components/PromptEditor/PromptEditor.types.ts`). -/
structure PromptVariable where
  name : String
  value : String
deriving DecidableEq

/-- Model of the `SavedPrompt` interface
(`src/components/PromptEditor/PromptEditor.types.ts`). -/
structure SavedPrompt where
  id : String
  name : String
  prompt : String
  «variables» : List PromptVariable
deriving DecidableEq

/-- The state of the `PromptEditor` component that the save/load and
reconciliation logic touches (`src/components/PromptEditor/PromptEditor.tsx`):
the prompt text, the derived variable list, the variable value mapping, the
saved prompt records, the selected saved prompt id and the name typed into
the save box. -/
structure EditorState where
  prompt : String
  «variables» : List PromptVariable
  variableValues : List (String × String)
  savedPrompts : List SavedPrompt
  selectedSavedPromptId : String
  newPromptName : String
deriving DecidableEq

/-- Model of the reconciliation effect (`PromptEditor.tsx`, lines 69-84),
which runs after every prompt-text change: recompute the variable names from
the prompt, keep the existing value of a persisting name (`variableValues[name]
|| ''` agrees with `Option.getD ""` because the fallback is itself the empty
string), give the empty string to a new name, and rebuild `variableValues`
with exactly the parsed names (the parsed names are duplicate-free, so
building the object by successive assignment is plain list construction). -/
def reconcileEffect (st : EditorState) : EditorState :=
  let newVariableNames := parseVariables st.prompt
  { st with
    «variables» := newVariableNames.map
      (fun name => { name := name, value := (lookupA st.variableValues name).getD "" }),
    variableValues := newVariableNames.map
      (fun name => (name, (lookupA st.variableValues name).getD "")) }

/-- A character JavaScript's `String.prototype.trim` strips: ECMAScript
WhiteSpace — tab, vertical tab, form feed, space, no-break space, the zero
width no-break space U+FEFF and the Unicode space separators (U+1680,
U+2000..U+200A, U+202F, U+205F, U+3000) — together with the line
terminators: line feed, carriage return, line separator U+2028 and
paragraph separator U+2029. -/
def jsWhitespace (c : Char) : Bool :=
  c.toNat = 9 || c.toNat = 10 || c.toNat = 11 || c.toNat = 12 || c.toNat = 13 ||
  c.toNat = 32 || c.toNat = 160 || c.toNat = 5760 ||
  (8192 ≤ c.toNat && c.toNat ≤ 8202) ||
  c.toNat = 8232 || c.toNat = 8233 || c.toNat = 8239 || c.toNat = 8287 ||
  c.toNat = 12288 || c.toNat = 65279

/-- Model of JavaScript `String.prototype.trim`: remove the characters of
`jsWhitespace` from both ends of the string. -/
def jsTrim (s : String) : String :=
  String.mk (((s.data.dropWhile jsWhitespace).reverse.dropWhile jsWhitespace).reverse)

/-- Model of `handleSavePrompt` (`PromptEditor.tsx`, lines 120-137).  The
freshly generated uuid is passed in as `newId`.  A blank (all-whitespace)
name aborts with an alert and leaves the state unchanged; otherwise a new
record snapshotting the prompt text and the current variable values is
appended to the saved list (and written to localStorage, outside this state
model) and the name box is cleared. -/
def handleSavePrompt (newId : String) (st : EditorState) : EditorState :=
  if jsTrim st.newPromptName = "" then st
  else
    let newSavedPrompt : SavedPrompt :=
      { id := newId
        name := jsTrim st.newPromptName
        prompt := st.prompt
        «variables» := st.«variables».map
          (fun v => { v with value := (lookupA st.variableValues v.name).getD "" }) }
    { st with
      savedPrompts := st.savedPrompts ++ [newSavedPrompt]
      newPromptName := "" }

/-- Model of `handleLoadPrompt` (`PromptEditor.tsx`, lines 144-158): find the
record with the given id; when found, replace the prompt text and rebuild
the value mapping from the record's variable snapshot and record the
selection; when not found, only clear the selection. -/
def handleLoadPrompt (savedPromptId : String) (st : EditorState) : EditorState :=
  match st.savedPrompts.find? (fun p => p.id == savedPromptId) with
  | some promptToLoad =>
    { st with
      prompt := promptToLoad.prompt
      variableValues := objOfPairs (promptToLoad.«variables».map (fun v => (v.name, v.value)))
      selectedSavedPromptId := savedPromptId }
  | none => { st with selectedSavedPromptId := "" }

/-- Model of the `ApiResponse` interface
(`src/components/PromptEditor/PromptEditor.types.ts`). -/
structure ApiMessage where
  content : String
  role : String
deriving DecidableEq

/-- One entry of `ApiResponse.choices`. -/
structure ApiChoice where
  message : ApiMessage
  finish_reason : String
  index : Nat
deriving DecidableEq

/-- The `usage` field of `ApiResponse`. -/
structure ApiUsage where
  completion_tokens : Nat
  prompt_tokens : Nat
  total_tokens : Nat
deriving DecidableEq

/-- The `ApiResponse` structure returned by the completion endpoint. -/
structure ApiResponse where
  choices : List ApiChoice
  created : Nat
  model : String
  system_fingerprint : String
  object : String
  usage : ApiUsage
deriving DecidableEq

/-- Model of the outcome of the `axios.post` call in `callOpenAIApi`
(`src/api/openaiApi.ts`): either a 2xx response with parsed data, or a
rejection.  Axios rejects non-2xx responses with an error carrying
`error.response` (`status`, and `data.error.message` when the body has the
structured shape, modelled by `dataErrorMessage`) plus its own `message`;
a transport failure carries `error.request` but no response; a setup failure
carries only a message. -/
inductive AxiosOutcome where
  | success (data : ApiResponse)
  | responseError (status : Nat) (dataErrorMessage : Option String) (message : String)
  | requestError (message : String)
  | setupError (message : String)

/-- Model of `callOpenAIApi` (`src/api/openaiApi.ts`, lines 13-48) as a
function of the axios outcome: a success returns the data; a response error
throws `API Error: <status> - <data.error.message or error.message>` (the
JavaScript `||` falls back when the body message is absent or empty); a
request error without response throws a fixed message; a setup error throws
`API Error: <message>`.  Thrown errors are modelled as `Except.error` of the
error's message. -/
def callOpenAIApi : AxiosOutcome → Except String ApiResponse
  | AxiosOutcome.success data => Except.ok data
  | AxiosOutcome.responseError status dataErrorMessage message =>
    Except.error ("API Error: " ++ toString status ++ " - " ++
      (match dataErrorMessage with
       | some m => if m = "" then message else m
       | none => message))
  | AxiosOutcome.requestError _ => Except.error "API Error: No response received from server."
  | AxiosOutcome.setupError message => Except.error ("API Error: " ++ message)

/-- Whether `pat` occurs as a contiguous substring of `s` (used to state
that an error message includes the body's message text). -/
def containsSub (pat : List Char) : List Char → Bool
  | [] => pat.isEmpty
  | c :: rest => pat.isPrefixOf (c :: rest) || containsSub pat rest

/-! ### Segment decomposition of templates

To state the amended substitution claims we decompose a template into
literal chunks and placeholder tokens.  A template is *well-formed* when its
literal chunks contain no opening brace and its token names consist of word
characters; every brace of such a template belongs to a token.  On
well-formed templates, sequential global replacement (what `mergePrompt`
does) coincides with simultaneous one-pass substitution whenever the values
contain no opening brace (substituting them cannot create a new token) and
no dollar character (the replacement string is inserted verbatim). -/

/-- One segment of a template: a literal chunk or a placeholder token with
the given name. -/
inductive Seg where
  | lit (cs : List Char)
  | tok (name : List Char)
deriving DecidableEq

/-- The text of the placeholder token for a name. -/
def tokenOf (n : List Char) : List Char := lbrace :: n ++ [rbrace]

/-- The template text denoted by a segment list. -/
def render : List Seg → List Char
  | [] => []
  | Seg.lit c :: rest => c ++ render rest
  | Seg.tok n :: rest => tokenOf n ++ render rest

/-- Well-formedness of one segment: a literal chunk holds no opening brace,
a token name holds only word characters. -/
def segWF : Seg → Bool
  | Seg.lit c => c.all (fun ch => ch != lbrace)
  | Seg.tok n => n.all isWordChar

/-- Substitution of one key by one value on the segment decomposition:
every token named by the key becomes the literal value. -/
def substOneSeg (k v : List Char) : Seg → Seg
  | Seg.lit c => Seg.lit c
  | Seg.tok n => if n = k then Seg.lit v else Seg.tok n

/-- Simultaneous substitution of a whole mapping on the segment
decomposition: every token whose name is a key of the mapping becomes the
literal value of that key; other tokens stay.  This is the spec's reading
of merging — literal, one-pass, values never re-scanned. -/
def substAllSeg (l : List (String × String)) : Seg → Seg
  | Seg.lit c => Seg.lit c
  | Seg.tok n =>
    match lookupA l (String.mk n) with
    | some v => Seg.lit v.data
    | none => Seg.tok n

/-- A convenient bundling of the hypotheses on a value mapping: every key
compiles as a regex (word characters, not a nonempty all-digit name) and
every value contains neither an opening brace nor a dollar character. -/
def BenignEntries (l : List (String × String)) : Prop :=
  ∀ kv ∈ l, regexCompiles kv.1 = true ∧ ∀ ch ∈ kv.2.data, ch ≠ lbrace ∧ ch ≠ '$'

instance : ∀ l, Decidable (BenignEntries l) := fun l => by
  unfold BenignEntries
  infer_instance

/-! ### Generic helper lemmas -/

theorem stringData_append (s t : String) : (s ++ t).data = s.data ++ t.data := rfl

theorem stringMk_eq_iff (l : List Char) (s : String) : String.mk l = s ↔ l = s.data := by
  constructor
  · intro h; rw [← h]
  · intro h; rw [h]

theorem isPrefixOf_append_self (l r : List Char) : l.isPrefixOf (l ++ r) = true := by
  induction l with
  | nil => simp [List.isPrefixOf]
  | cons c cs ih => simp [List.isPrefixOf, ih]

theorem containsSub_append_left (pat a : List Char) : containsSub pat (a ++ pat) = true := by
  induction a with
  | nil =>
    cases pat with
    | nil => rfl
    | cons c cs =>
      show containsSub (c :: cs) (c :: cs) = true
      have h : (c :: cs).isPrefixOf (c :: cs) = true := by
        have h0 := isPrefixOf_append_self (c :: cs) []
        rwa [List.append_nil] at h0
      simp [containsSub, h]
  | cons x xs ih => simp [containsSub, ih]

theorem dropLength_append (l r : List Char) : (l ++ r).drop l.length = r := by
  induction l with
  | nil => rfl
  | cons c cs ih => simpa only [List.cons_append, List.length_cons, List.drop_succ_cons] using ih

/-! ### Lemmas about the deduplication pass of the scanner -/

theorem dedupAux_mem (l : List String) :
    ∀ seen x, x ∈ dedupAux seen l ↔ x ∈ l ∧ x ∉ seen := by
  induction l with
  | nil => intro seen x; simp [dedupAux]
  | cons y ys ih =>
    intro seen x
    by_cases hy : y ∈ seen
    · simp only [dedupAux, if_pos hy, ih]
      constructor
      · rintro ⟨hx, hns⟩; exact ⟨List.mem_cons_of_mem _ hx, hns⟩
      · rintro ⟨hx, hns⟩
        rcases List.mem_cons.mp hx with h | h
        · exact absurd (h ▸ hy) hns
        · exact ⟨h, hns⟩
    · simp only [dedupAux, if_neg hy]
      constructor
      · intro hx
        rcases List.mem_cons.mp hx with h | h
        · exact ⟨h ▸ List.mem_cons_self _ _, h ▸ hy⟩
        · rcases (ih _ _).mp h with ⟨h1, h2⟩
          refine ⟨List.mem_cons_of_mem _ h1, fun hs => h2 (List.mem_cons_of_mem _ hs)⟩
      · rintro ⟨hx, hns⟩
        by_cases hxy : x = y
        · exact hxy ▸ List.mem_cons_self _ _
        · rcases List.mem_cons.mp hx with h | h
          · exact absurd h hxy
          · exact List.mem_cons_of_mem _ ((ih _ _).mpr ⟨h, fun hs => by
              rcases List.mem_cons.mp hs with h' | h'
              · exact hxy h'
              · exact hns h'⟩)

theorem dedupAux_nodup (l : List String) : ∀ seen, (dedupAux seen l).Nodup := by
  induction l with
  | nil => intro seen; simp [dedupAux]
  | cons y ys ih =>
    intro seen
    by_cases hy : y ∈ seen
    · simpa [dedupAux, if_pos hy] using ih seen
    · rw [dedupAux, if_neg hy]
      refine List.nodup_cons.mpr ⟨fun hmem => ?_, ih _⟩
      exact ((dedupAux_mem ys _ _).mp hmem).2 (List.mem_cons_self _ _)

theorem dedupAux_pairwise (l : List String) :
    ∀ seen, (dedupAux seen l).Pairwise (fun a b => l.indexOf a < l.indexOf b) := by
  induction l with
  | nil => intro seen; simp [dedupAux]
  | cons y ys ih =>
    intro seen
    by_cases hy : y ∈ seen
    · rw [dedupAux, if_pos hy]
      refine List.Pairwise.imp_of_mem ?_ (ih seen)
      intro a b ha hb hlt
      have hamem := (dedupAux_mem ys seen a).mp ha
      have hbmem := (dedupAux_mem ys seen b).mp hb
      have hay : y ≠ a := fun h => hamem.2 (h ▸ hy)
      have hby : y ≠ b := fun h => hbmem.2 (h ▸ hy)
      rw [List.indexOf_cons_ne _ hay, List.indexOf_cons_ne _ hby]
      omega
    · rw [dedupAux, if_neg hy]
      refine List.Pairwise.cons ?_ ?_
      · intro b hb
        have hbmem := (dedupAux_mem ys (y :: seen) b).mp hb
        have hby : y ≠ b := fun h => hbmem.2 (h ▸ List.mem_cons_self _ _)
        rw [List.indexOf_cons_self, List.indexOf_cons_ne _ hby]
        omega
      · refine List.Pairwise.imp_of_mem ?_ (ih (y :: seen))
        intro a b ha hb hlt
        have hamem := (dedupAux_mem ys (y :: seen) a).mp ha
        have hbmem := (dedupAux_mem ys (y :: seen) b).mp hb
        have hay : y ≠ a := fun h => hamem.2 (h ▸ List.mem_cons_self _ _)
        have hby : y ≠ b := fun h => hbmem.2 (h ▸ List.mem_cons_self _ _)
        rw [List.indexOf_cons_ne _ hay, List.indexOf_cons_ne _ hby]
        omega

/-- C5: for every string, the scanner returns the duplicate-free list of the
names matched by `/{(\w+)}/g` — `scanAux` is the match list — keeping only
the first appearance of each name and preserving the order of first
appearances (each returned name occurs at a strictly earlier first-match
index than every name after it); a string with no match yields the empty
list, and `parseVariables "{a}-{b}-{a}" = ["a", "b"]`. -/
theorem parseVariables_spec :
    (∀ s : String,
      (parseVariables s).Nodup ∧
      (∀ x, x ∈ parseVariables s ↔ x ∈ scanAux s.data) ∧
      (parseVariables s).Pairwise
        (fun a b => (scanAux s.data).indexOf a < (scanAux s.data).indexOf b)) ∧
    parseVariables "{a}-{b}-{a}" = ["a", "b"] ∧
    parseVariables "no vars here" = [] := by
  refine ⟨fun s => ⟨dedupAux_nodup _ _, fun x => ?_, dedupAux_pairwise _ _⟩, by decide, by decide⟩
  rw [parseVariables]
  simpa using dedupAux_mem (scanAux s.data) [] x

/-! ### Reconciliation of the variable value mapping (claim C8) -/

theorem lookupA_map_self (f : String → String) (l : List String) (x : String) :
    lookupA (l.map (fun n => (n, f n))) x = if x ∈ l then some (f x) else none := by
  induction l with
  | nil => simp [lookupA]
  | cons n ns ih =>
    by_cases h : n = x
    · subst h; simp [lookupA, ih]
    · simp only [List.map_cons, lookupA, if_neg h, ih, List.mem_cons]
      have hxn : ¬x = n := fun hh => h hh.symm
      by_cases hx : x ∈ ns
      · simp [hx]
      · simp [hx, hxn]

/-- C8: after the reconciliation effect that every template-text change
triggers, the key list of the variable value mapping is exactly the scanned
variable list of the new prompt; a name present in the new prompt keeps its
previous value (empty if it had none, i.e. if it is new), and a name absent
from the new prompt is dropped.  The two concrete conjuncts replay the
spec's scenario: editing `"{a}"` (with a = "1") to `"{a} {b}"` yields the
mapping a ↦ "1", b ↦ ""; editing further to `"{b}"` yields b ↦ "". -/
theorem reconcileEffect_exact :
    (∀ st : EditorState,
      ((reconcileEffect st).variableValues.map Prod.fst = parseVariables st.prompt) ∧
      (∀ n, lookupA (reconcileEffect st).variableValues n =
        if n ∈ parseVariables st.prompt then some ((lookupA st.variableValues n).getD "")
        else none)) ∧
    (reconcileEffect
      { prompt := "{a} {b}", «variables» := [{ name := "a", value := "1" }],
        variableValues := [("a", "1")], savedPrompts := [],
        selectedSavedPromptId := "", newPromptName := "" }).variableValues
      = [("a", "1"), ("b", "")] ∧
    (reconcileEffect
      { prompt := "{b}",
        «variables» := [{ name := "a", value := "1" }, { name := "b", value := "" }],
        variableValues := [("a", "1"), ("b", "")], savedPrompts := [],
        selectedSavedPromptId := "", newPromptName := "" }).variableValues
      = [("b", "")] := by
  refine ⟨fun st => ⟨?_, fun n => ?_⟩, by decide, by decide⟩
  · show ((parseVariables st.prompt).map
      (fun name => (name, (lookupA st.variableValues name).getD ""))).map Prod.fst
      = parseVariables st.prompt
    rw [List.map_map]
    exact List.map_id _
  · exact lookupA_map_self _ _ _

/-! ### The completion client (claim C9) -/

/-- C9: a completion call whose HTTP response has a non-2xx status and a
body carrying a nonempty `error.message` is surfaced as a thrown error (a
rejected call, never a result), and the thrown message — `API Error:
<status> - <body message>` — contains the body's message text verbatim. -/
theorem callOpenAIApi_remote_rejected (status : Nat) (msg fallback : String)
    (h : msg ≠ "") :
    callOpenAIApi (AxiosOutcome.responseError status (some msg) fallback) =
      Except.error ("API Error: " ++ toString status ++ " - " ++ msg) ∧
    containsSub msg.data ("API Error: " ++ toString status ++ " - " ++ msg).data = true := by
  constructor
  · simp [callOpenAIApi, h]
  · have hdata : ("API Error: " ++ toString status ++ " - " ++ msg).data
        = ("API Error: " ++ toString status ++ " - ").data ++ msg.data := rfl
    rw [hdata]
    exact containsSub_append_left _ _

/-- Witness for C9 at the spec's concrete scenario: HTTP 401 with body
message "invalid key". -/
theorem callOpenAIApi_remote_rejected_witness :
    ("invalid key" : String) ≠ "" ∧
    (callOpenAIApi (AxiosOutcome.responseError 401 (some "invalid key")
        "Request failed with status code 401") =
      Except.error ("API Error: " ++ toString 401 ++ " - " ++ "invalid key") ∧
    containsSub "invalid key".data
      ("API Error: " ++ toString 401 ++ " - " ++ "invalid key").data = true) :=
  ⟨by decide, callOpenAIApi_remote_rejected 401 "invalid key"
    "Request failed with status code 401" (by decide)⟩

/-! ### Loading an unknown id (claim C10) -/

/-- C10: loading a saved-prompt id that matches no saved record leaves the
whole editor state unchanged except for clearing the selected id — in
particular the prompt text and the variable value mapping are untouched. -/
theorem handleLoadPrompt_unknown (st : EditorState) (savedPromptId : String)
    (h : ∀ p ∈ st.savedPrompts, p.id ≠ savedPromptId) :
    handleLoadPrompt savedPromptId st = { st with selectedSavedPromptId := "" } := by
  have hfind : st.savedPrompts.find? (fun p => p.id == savedPromptId) = none := by
    rw [List.find?_eq_none]
    intro p hp
    simpa using h p hp
  rw [handleLoadPrompt, hfind]

/-- Witness for C10: a state holding one saved prompt with id "p1", asked to
load id "p2". -/
theorem handleLoadPrompt_unknown_witness :
    (∀ p ∈ (⟨"{x}", [], [("x", "v")], [⟨"p1", "one", "t", []⟩], "p1", ""⟩
        : EditorState).savedPrompts, p.id ≠ "p2") ∧
    handleLoadPrompt "p2" ⟨"{x}", [], [("x", "v")], [⟨"p1", "one", "t", []⟩], "p1", ""⟩
      = ⟨"{x}", [], [("x", "v")], [⟨"p1", "one", "t", []⟩], "", ""⟩ :=
  ⟨by decide, handleLoadPrompt_unknown _ _ (by decide)⟩

/-! ### Total-function claims about the merger (claim C1) -/

/-- C1 fails on the code: the scanner itself produces the variable name "23"
from the template `"{23}"`, and merging that template with a value for "23"
makes `new RegExp` throw (the pattern is a braced quantifier with nothing to
repeat), so the merger is not total even over scanner-produced keys. -/
theorem mergePrompt_throws_on_digit_name :
    parseVariables "{23}" = ["23"] ∧
    mergePrompt "{23}" [("23", "V")] =
      Except.error "SyntaxError: Invalid regular expression" :=
  ⟨by decide, by decide⟩

/-! ### Counterexamples to the literal-substitution claims -/

/-- Counterexample to C2: the value substituted for key "a" contains the
placeholder `"{b}"`, and the later pass for key "b" replaces it, so a
substituted value is re-scanned and a placeholder token inside a supplied
value is replaced (the claim requires the output `"{b}"`). -/
theorem mergePrompt_rescans_substituted_value :
    mergePrompt "{a}" [("a", "{b}"), ("b", "X")] = Except.ok "X" ∧
    mergePrompt "{a}" [("a", "{b}"), ("b", "X")] ≠ Except.ok "{b}" :=
  ⟨by decide, by decide⟩

/-- Counterexample to C3: the token `"{d}"` does not occur in the template
`"{c}"`, yet removing the key "d" from the mapping changes the result (from
"Y" to `"{d}"`), because the value substituted for "c" reintroduces `"{d}"`. -/
theorem mergePrompt_unused_key_not_inert :
    mergePrompt "{c}" [("c", "{d}"), ("d", "Y")] ≠ mergePrompt "{c}" [("c", "{d}")] := by
  decide

/-- Counterexample to C4: the same mapping applied in its two enumeration
orders yields different results ("X" versus `"{b}"`), although its keys "a"
and "b" are pairwise distinct. -/
theorem mergePrompt_order_dependent :
    mergePrompt "{a}" [("a", "{b}"), ("b", "X")]
      ≠ mergePrompt "{a}" [("b", "X"), ("a", "{b}")] := by
  decide

/-- Counterexample to C6: with the single value `"$&x"` — which contains no
brace syntax at all, so the claim's proviso is met — merging once yields
`"{a}x"` but merging the result again yields `"{a}xx"`: the dollar sequence
`$&` reinserts the matched placeholder, defeating idempotence. -/
theorem mergePrompt_not_idempotent :
    mergePrompt "{a}" [("a", "$&x")] = Except.ok "{a}x" ∧
    mergePrompt "{a}x" [("a", "$&x")] ≠ Except.ok "{a}x" :=
  ⟨by decide, by decide⟩

/-! ### The replacement scan on well-formed templates -/

theorem expandRepl_of_dollarFree (matched pre post : List Char) :
    ∀ repl : List Char, (∀ ch ∈ repl, ch ≠ '$') → expandRepl matched pre post repl = repl
  | [], _ => rfl
  | [c], _ => rfl
  | c :: d :: rest2, h => by
    have hc : c ≠ '$' := h c (List.mem_cons_self _ _)
    have hrest : ∀ ch ∈ d :: rest2, ch ≠ '$' := fun ch hch => h ch (List.mem_cons_of_mem _ hch)
    simp only [expandRepl, if_neg hc]
    rw [expandRepl_of_dollarFree matched pre post (d :: rest2) hrest]

theorem jsReplaceAux_copy (patTail repl : List Char) :
    ∀ c : List Char, (∀ ch ∈ c, ch ≠ lbrace) → ∀ pre r : List Char,
      jsReplaceAux lbrace patTail repl pre 0 (c ++ r)
        = c ++ jsReplaceAux lbrace patTail repl (pre ++ c) 0 r
  | [], _, pre, r => by simp
  | ch :: cs, h, pre, r => by
    have hch : ch ≠ lbrace := h ch (List.mem_cons_self _ _)
    have hpre : (lbrace :: patTail).isPrefixOf (ch :: (cs ++ r)) = false := by
      simp [List.isPrefixOf, Ne.symm hch]
    rw [List.cons_append, jsReplaceAux, if_neg (by simp [hpre])]
    rw [jsReplaceAux_copy patTail repl cs (fun x hx => h x (List.mem_cons_of_mem _ hx)) (pre ++ [ch]) r]
    simp

theorem jsReplaceAux_skip (patHead : Char) (patTail repl : List Char) :
    ∀ c : List Char, ∀ pre r : List Char,
      jsReplaceAux patHead patTail repl pre c.length (c ++ r)
        = jsReplaceAux patHead patTail repl (pre ++ c) 0 r
  | [], pre, r => by simp
  | ch :: cs, pre, r => by
    rw [List.cons_append, List.length_cons]
    show jsReplaceAux patHead patTail repl (pre ++ [ch]) cs.length (cs ++ r) = _
    rw [jsReplaceAux_skip patHead patTail repl cs (pre ++ [ch]) r]
    simp

theorem token_prefix_forces_eq (r : List Char) :
    ∀ k j : List Char, (∀ c ∈ k, isWordChar c = true) → (∀ c ∈ j, isWordChar c = true) →
      (k ++ [rbrace]).isPrefixOf (j ++ [rbrace] ++ r) = true → k = j
  | [], [], _, _, _ => rfl
  | [], c :: j', _, hj, hp => by
    exfalso
    simp only [List.nil_append, List.cons_append, List.isPrefixOf, Bool.and_eq_true,
      beq_iff_eq] at hp
    have hw := hj c (List.mem_cons_self _ _)
    rw [← hp.1] at hw
    exact absurd hw (by decide)
  | a :: k', [], hk, _, hp => by
    exfalso
    simp only [List.cons_append, List.nil_append, List.isPrefixOf, Bool.and_eq_true,
      beq_iff_eq] at hp
    have hw := hk a (List.mem_cons_self _ _)
    rw [hp.1] at hw
    exact absurd hw (by decide)
  | a :: k', c :: j', hk, hj, hp => by
    simp only [List.cons_append, List.isPrefixOf, Bool.and_eq_true, beq_iff_eq] at hp
    have htail := token_prefix_forces_eq r k' j'
      (fun x hx => hk x (List.mem_cons_of_mem _ hx))
      (fun x hx => hj x (List.mem_cons_of_mem _ hx)) hp.2
    rw [hp.1, htail]

theorem jsReplaceAux_tok_ne (k : List Char) (hk : ∀ c ∈ k, isWordChar c = true)
    (repl : List Char) (j : List Char) (hj : ∀ c ∈ j, isWordChar c = true)
    (hne : j ≠ k) (pre r : List Char) :
    jsReplaceAux lbrace (k ++ [rbrace]) repl pre 0 (tokenOf j ++ r)
      = tokenOf j ++ jsReplaceAux lbrace (k ++ [rbrace]) repl (pre ++ tokenOf j) 0 r := by
  have hjl : ∀ c ∈ j, c ≠ lbrace := by
    intro c hc he
    have := hj c hc
    rw [he] at this
    exact absurd this (by decide)
  have hnp : (k ++ [rbrace]).isPrefixOf (j ++ rbrace :: r) = false := by
    cases hb : (k ++ [rbrace]).isPrefixOf (j ++ rbrace :: r) with
    | false => rfl
    | true =>
      have hb' : (k ++ [rbrace]).isPrefixOf (j ++ [rbrace] ++ r) = true := by
        simpa [List.append_assoc] using hb
      exact absurd (token_prefix_forces_eq r k j hk hj hb') (fun h => hne h.symm)
  have hshape : tokenOf j ++ r = lbrace :: (j ++ ([rbrace] ++ r)) := by
    simp [tokenOf]
  rw [hshape, jsReplaceAux, if_neg (by simp [List.isPrefixOf, hnp])]
  rw [jsReplaceAux_copy (k ++ [rbrace]) repl j hjl (pre ++ [lbrace]) ([rbrace] ++ r)]
  rw [jsReplaceAux_copy (k ++ [rbrace]) repl [rbrace] (by decide) ((pre ++ [lbrace]) ++ j) r]
  simp [tokenOf, List.append_assoc]

theorem jsReplaceAux_tok_eq (k : List Char) (repl : List Char)
    (hd : ∀ ch ∈ repl, ch ≠ '$') (pre r : List Char) :
    jsReplaceAux lbrace (k ++ [rbrace]) repl pre 0 (tokenOf k ++ r)
      = repl ++ jsReplaceAux lbrace (k ++ [rbrace]) repl (pre ++ tokenOf k) 0 r := by
  have hshape : tokenOf k ++ r = lbrace :: ((k ++ [rbrace]) ++ r) := by
    simp [tokenOf]
  have hcond : (lbrace :: (k ++ [rbrace])).isPrefixOf (lbrace :: ((k ++ [rbrace]) ++ r)) = true := by
    exact isPrefixOf_append_self (lbrace :: (k ++ [rbrace])) r
  rw [hshape, jsReplaceAux, if_pos (by simp [hcond])]
  have hdrop : (lbrace :: ((k ++ [rbrace]) ++ r)).drop ((k ++ [rbrace]).length + 1)
      = r := by
    rw [List.drop_succ_cons]
    exact dropLength_append _ _
  rw [hdrop, expandRepl_of_dollarFree _ _ _ repl hd]
  rw [jsReplaceAux_skip lbrace (k ++ [rbrace]) repl (k ++ [rbrace]) (pre ++ [lbrace]) r]
  simp [tokenOf, List.append_assoc]

theorem jsReplaceAux_render (k : List Char) (hk : ∀ c ∈ k, isWordChar c = true)
    (repl : List Char) (hd : ∀ ch ∈ repl, ch ≠ '$') :
    ∀ segs : List Seg, (∀ s ∈ segs, segWF s = true) → ∀ pre : List Char,
      jsReplaceAux lbrace (k ++ [rbrace]) repl pre 0 (render segs)
        = render (segs.map (substOneSeg k repl))
  | [], _, pre => rfl
  | Seg.lit c :: rest, hw, pre => by
    have hc : ∀ ch ∈ c, ch ≠ lbrace := by
      have := hw (Seg.lit c) (List.mem_cons_self _ _)
      simp only [segWF, List.all_eq_true, bne_iff_ne] at this
      exact this
    rw [render, jsReplaceAux_copy (k ++ [rbrace]) repl c hc pre (render rest)]
    rw [jsReplaceAux_render k hk repl hd rest
      (fun s hs => hw s (List.mem_cons_of_mem _ hs)) (pre ++ c)]
    rfl
  | Seg.tok n :: rest, hw, pre => by
    by_cases hn : n = k
    · subst hn
      rw [render, jsReplaceAux_tok_eq n repl hd pre (render rest)]
      rw [jsReplaceAux_render n hk repl hd rest
        (fun s hs => hw s (List.mem_cons_of_mem _ hs)) (pre ++ tokenOf n)]
      simp [substOneSeg, render]
    · have hj : ∀ c ∈ n, isWordChar c = true := by
        have := hw (Seg.tok n) (List.mem_cons_self _ _)
        simpa only [segWF, List.all_eq_true] using this
      rw [render, jsReplaceAux_tok_ne k hk repl n hj hn pre (render rest)]
      rw [jsReplaceAux_render k hk repl hd rest
        (fun s hs => hw s (List.mem_cons_of_mem _ hs)) (pre ++ tokenOf n)]
      simp [substOneSeg, hn, render]

theorem substOneSeg_preserves_WF (k v : List Char) (hv : ∀ ch ∈ v, ch ≠ lbrace)
    (s : Seg) (hs : segWF s = true) : segWF (substOneSeg k v s) = true := by
  cases s with
  | lit c => exact hs
  | tok n =>
    by_cases hn : n = k
    · simp only [substOneSeg, if_pos hn, segWF, List.all_eq_true, bne_iff_ne]
      exact hv
    · simpa only [substOneSeg, if_neg hn] using hs

theorem mergePrompt_renders :
    ∀ (l : List (String × String)) (segs : List Seg),
      (∀ s ∈ segs, segWF s = true) → BenignEntries l →
      mergePrompt (String.mk (render segs)) l
        = Except.ok (String.mk (render
            (l.foldl (fun sg kv => sg.map (substOneSeg kv.1.data kv.2.data)) segs)))
  | [], segs, _, _ => rfl
  | kv :: l', segs, hw, hl => by
    have hkv := hl kv (List.mem_cons_self _ _)
    have hk : ∀ c ∈ kv.1.data, isWordChar c = true := by
      have := hkv.1
      rw [regexCompiles, Bool.and_eq_true] at this
      exact List.all_eq_true.mp this.1
    have hd : ∀ ch ∈ kv.2.data, ch ≠ '$' := fun ch hch => (hkv.2 ch hch).2
    have hlb : ∀ ch ∈ kv.2.data, ch ≠ lbrace := fun ch hch => (hkv.2 ch hch).1
    have hstep : mergePrompt (String.mk (render segs)) (kv :: l')
        = l'.foldl
            (fun merged kv' =>
              match merged with
              | Except.error e => Except.error e
              | Except.ok s =>
                if regexCompiles kv'.1 then
                  Except.ok (String.mk (jsReplaceAux lbrace (kv'.1.data ++ [rbrace])
                    kv'.2.data [] 0 s.data))
                else Except.error "SyntaxError: Invalid regular expression")
            (Except.ok (String.mk (jsReplaceAux lbrace (kv.1.data ++ [rbrace])
              kv.2.data [] 0 (render segs)))) := by
      simp only [mergePrompt, List.foldl_cons, hkv.1, if_true]
    rw [hstep, jsReplaceAux_render kv.1.data hk kv.2.data hd segs hw []]
    have hw' : ∀ s ∈ segs.map (substOneSeg kv.1.data kv.2.data), segWF s = true := by
      intro s hs
      rcases List.mem_map.mp hs with ⟨t, ht, rfl⟩
      exact substOneSeg_preserves_WF _ _ hlb t (hw t ht)
    have hl' : BenignEntries l' := fun kv' hkv' => hl kv' (List.mem_cons_of_mem _ hkv')
    have := mergePrompt_renders l' (segs.map (substOneSeg kv.1.data kv.2.data)) hw' hl'
    rw [mergePrompt] at this
    rw [this, List.foldl_cons]

theorem foldl_substOne_eq_substAll :
    ∀ (l : List (String × String)) (segs : List Seg),
      l.foldl (fun sg kv => sg.map (substOneSeg kv.1.data kv.2.data)) segs
        = segs.map (substAllSeg l)
  | [], segs => by
    rw [List.foldl_nil]
    conv_lhs => rw [← List.map_id segs]
    refine List.map_congr_left (fun s _ => ?_)
    cases s with
    | lit c => rfl
    | tok n => rfl
  | kv :: l', segs => by
    rw [List.foldl_cons, foldl_substOne_eq_substAll l' _, List.map_map]
    refine List.map_congr_left (fun s _ => ?_)
    cases s with
    | lit c => rfl
    | tok n =>
      show substAllSeg l' (substOneSeg kv.1.data kv.2.data (Seg.tok n))
          = substAllSeg (kv :: l') (Seg.tok n)
      by_cases hn : n = kv.1.data
      · have hkey : kv.1 = String.mk n := by rw [hn]
        simp only [substOneSeg, if_pos hn, substAllSeg, lookupA, if_pos hkey]
      · have hkey : ¬kv.1 = String.mk n := fun h => hn (by rw [h])
        simp only [substOneSeg, if_neg hn, substAllSeg, lookupA, if_neg hkey]

theorem lookupA_perm {l₁ l₂ : List (String × String)} (hperm : l₁.Perm l₂) :
    (l₁.map Prod.fst).Nodup → ∀ key, lookupA l₁ key = lookupA l₂ key := by
  induction hperm with
  | nil => intro _ _; rfl
  | cons kv htail ih =>
    intro hnd key
    rw [List.map_cons] at hnd
    have hnd' := (List.nodup_cons.mp hnd).2
    by_cases h : kv.1 = key
    · simp [lookupA, h]
    · simp [lookupA, h, ih hnd' key]
  | swap kv1 kv2 l =>
    intro hnd key
    rw [List.map_cons, List.map_cons] at hnd
    have h12 : kv2.1 ≠ kv1.1 := by
      have hni := (List.nodup_cons.mp hnd).1
      intro he
      exact hni (by rw [he]; exact List.mem_cons_self _ _)
    by_cases h1 : kv1.1 = key
    · have h2 : ¬kv2.1 = key := fun h2 => h12 (h2.trans h1.symm)
      simp [lookupA, h1, h2]
    · by_cases h2 : kv2.1 = key
      · simp [lookupA, h1, h2]
      · simp [lookupA, h1, h2]
  | trans h12 _ ih1 ih2 =>
    intro hnd key
    have hndm : _ := ((h12.map Prod.fst).nodup_iff).mp hnd
    rw [ih1 hnd key, ih2 hndm key]

theorem substAllSeg_preserves_WF (l : List (String × String))
    (hl : BenignEntries l) (s : Seg) (hs : segWF s = true) :
    segWF (substAllSeg l s) = true := by
  cases s with
  | lit c => exact hs
  | tok n =>
    cases hlook : lookupA l (String.mk n) with
    | none => simpa only [substAllSeg, hlook] using hs
    | some v =>
      simp only [substAllSeg, hlook]
      have hv : (String.mk n, v) ∈ l ∨ ∃ k, (k, v) ∈ l := by
        right
        clear hs
        induction l with
        | nil => cases hlook
        | cons kv l' ih =>
          rw [lookupA] at hlook
          by_cases hk : kv.1 = String.mk n
          · rw [if_pos hk] at hlook
            exact ⟨kv.1, by cases kv with | mk a b => cases hlook; exact List.mem_cons_self _ _⟩
          · rw [if_neg hk] at hlook
            rcases ih (fun kv' h' => hl kv' (List.mem_cons_of_mem _ h')) hlook with ⟨k, hkmem⟩
            exact ⟨k, List.mem_cons_of_mem _ hkmem⟩
      rcases hv with h | ⟨k, hkmem⟩
      · have := (hl _ h).2
        simp only [segWF, List.all_eq_true, bne_iff_ne]
        exact fun ch hch => (this ch hch).1
      · have := (hl _ hkmem).2
        simp only [segWF, List.all_eq_true, bne_iff_ne]
        exact fun ch hch => (this ch hch).1

theorem substAllSeg_idem (l : List (String × String)) (s : Seg) :
    substAllSeg l (substAllSeg l s) = substAllSeg l s := by
  cases s with
  | lit c => rfl
  | tok n =>
    cases hlook : lookupA l (String.mk n) with
    | none => simp only [substAllSeg, hlook]
    | some v => simp only [substAllSeg, hlook]

theorem lookupA_filter_ne :
    ∀ (l : List (String × String)) (k key : String), key ≠ k →
      lookupA (l.filter (fun kv => kv.1 != k)) key = lookupA l key
  | [], _, _, _ => rfl
  | kv :: l', k, key, h => by
    by_cases hkv : kv.1 = k
    · have hdrop : (kv.1 != k) = false := by simp [hkv]
      rw [List.filter_cons, hdrop]
      simp only [Bool.false_eq_true, if_false]
      rw [lookupA_filter_ne l' k key h, lookupA, if_neg (fun he => h (by rw [← he, hkv]))]
    · have hkeep : (kv.1 != k) = true := by simp [hkv]
      rw [List.filter_cons, hkeep]
      simp only [if_true]
      rw [lookupA, lookupA]
      by_cases hk2 : kv.1 = key
      · rw [if_pos hk2, if_pos hk2]
      · rw [if_neg hk2, if_neg hk2, lookupA_filter_ne l' k key h]

/-- On a well-formed template with benign entries, merging equals
simultaneous one-pass substitution on the segment decomposition (shared
backbone of the amended claims C2, C3, C4 and C6). -/
theorem merge_substAll (segs : List Seg) (hw : ∀ s ∈ segs, segWF s = true)
    (l : List (String × String)) (hl : BenignEntries l) :
    mergePrompt (String.mk (render segs)) l
      = Except.ok (String.mk (render (segs.map (substAllSeg l)))) := by
  rw [mergePrompt_renders l segs hw hl, foldl_substOne_eq_substAll]

/-! ### Amended substitution claims -/

/-- Amended C2: on a well-formed template (each brace belongs to a
placeholder token with a word-character name) and for a mapping whose keys
compile and whose values contain no opening brace and no dollar character,
merging is literal simultaneous substitution: each token is replaced by its
key's value inserted verbatim, and substituted values are never re-scanned
(the result is the one-pass segment substitution `substAllSeg`).  Without
these restrictions the claim is false: later keys' passes re-scan earlier
substituted values, and dollar sequences in values are interpreted. -/
theorem mergePrompt_literal_on_wf (segs : List Seg) (hw : ∀ s ∈ segs, segWF s = true)
    (l : List (String × String)) (hl : BenignEntries l) :
    mergePrompt (String.mk (render segs)) l
      = Except.ok (String.mk (render (segs.map (substAllSeg l)))) :=
  merge_substAll segs hw l hl

/-- Witness for the amended C2 at the template `"{x} and {y}"` with values
x ↦ "1", y ↦ "2". -/
theorem mergePrompt_literal_on_wf_witness :
    (∀ s ∈ [Seg.tok ['x'], Seg.lit " and ".data, Seg.tok ['y']], segWF s = true) ∧
    BenignEntries [("x", "1"), ("y", "2")] ∧
    mergePrompt (String.mk (render [Seg.tok ['x'], Seg.lit " and ".data, Seg.tok ['y']]))
        [("x", "1"), ("y", "2")]
      = Except.ok (String.mk (render
          ([Seg.tok ['x'], Seg.lit " and ".data, Seg.tok ['y']].map
            (substAllSeg [("x", "1"), ("y", "2")])))) :=
  ⟨by decide, by decide,
    mergePrompt_literal_on_wf _ (by decide) _ (by decide)⟩

/-- Amended C3: a key whose token occurs nowhere in a well-formed template
is inert — removing all its entries from a benign mapping does not change
the merge result, and (the keys compiling) no error arises.  The
unrestricted claim is false because another value can reintroduce the
unused key's token, and because a non-compiling key errors even when
unused. -/
theorem mergePrompt_unused_key_inert (segs : List Seg) (hw : ∀ s ∈ segs, segWF s = true)
    (l : List (String × String)) (hl : BenignEntries l) (k : String)
    (hk : Seg.tok k.data ∉ segs) :
    mergePrompt (String.mk (render segs)) l
      = mergePrompt (String.mk (render segs)) (l.filter (fun kv => kv.1 != k)) := by
  have hl' : BenignEntries (l.filter (fun kv => kv.1 != k)) :=
    fun kv hkv => hl kv (List.mem_of_mem_filter hkv)
  rw [merge_substAll segs hw l hl, merge_substAll segs hw _ hl']
  refine congrArg _ (congrArg _ (congrArg _ (List.map_congr_left (fun s hs => ?_))))
  cases s with
  | lit c => rfl
  | tok n =>
    have hn : ¬n = k.data := fun he => hk (he ▸ hs)
    have hne : String.mk n ≠ k := fun he => hn (by rw [← he])
    simp only [substAllSeg, lookupA_filter_ne l k (String.mk n) hne]

/-- Witness for the amended C3, containing the spec's concrete example: in
`merge("{x}", {y:"V"})` the key "y" is inert and the result is `"{x}"`. -/
theorem mergePrompt_unused_key_inert_witness :
    (∀ s ∈ [Seg.tok ['x']], segWF s = true) ∧
    BenignEntries [("y", "V")] ∧
    Seg.tok "y".data ∉ [Seg.tok ['x']] ∧
    mergePrompt (String.mk (render [Seg.tok ['x']])) [("y", "V")]
      = mergePrompt (String.mk (render [Seg.tok ['x']]))
          ([("y", "V")].filter (fun kv => kv.1 != "y")) ∧
    mergePrompt "{x}" [("y", "V")] = Except.ok "{x}" :=
  ⟨by decide, by decide, by decide,
    mergePrompt_unused_key_inert _ (by decide) _ (by decide) "y" (by decide),
    by decide⟩

/-- Amended C4: on a well-formed template, a benign mapping with pairwise
distinct keys merges to the same result in any enumeration order.  Without
the benign-value restriction the claim is false: a value can reintroduce
another key's token, so an earlier pass feeds a later one. -/
theorem mergePrompt_order_independent (segs : List Seg) (hw : ∀ s ∈ segs, segWF s = true)
    (l₁ l₂ : List (String × String)) (hperm : l₁.Perm l₂)
    (hnd : (l₁.map Prod.fst).Nodup) (hl : BenignEntries l₁) :
    mergePrompt (String.mk (render segs)) l₁
      = mergePrompt (String.mk (render segs)) l₂ := by
  have hl₂ : BenignEntries l₂ := fun kv hkv => hl kv (hperm.symm.subset hkv)
  rw [merge_substAll segs hw l₁ hl, merge_substAll segs hw l₂ hl₂]
  refine congrArg _ (congrArg _ (congrArg _ (List.map_congr_left (fun s _ => ?_))))
  cases s with
  | lit c => rfl
  | tok n => simp only [substAllSeg, lookupA_perm hperm hnd (String.mk n)]

/-- Witness for the amended C4: `"{a}*{b}"` with a ↦ "1", b ↦ "2" in both
enumeration orders. -/
theorem mergePrompt_order_independent_witness :
    (∀ s ∈ [Seg.tok ['a'], Seg.lit ['*'], Seg.tok ['b']], segWF s = true) ∧
    ([("a", "1"), ("b", "2")] : List (String × String)).Perm [("b", "2"), ("a", "1")] ∧
    (([("a", "1"), ("b", "2")] : List (String × String)).map Prod.fst).Nodup ∧
    BenignEntries [("a", "1"), ("b", "2")] ∧
    mergePrompt (String.mk (render [Seg.tok ['a'], Seg.lit ['*'], Seg.tok ['b']]))
        [("a", "1"), ("b", "2")]
      = mergePrompt (String.mk (render [Seg.tok ['a'], Seg.lit ['*'], Seg.tok ['b']]))
          [("b", "2"), ("a", "1")] :=
  ⟨by decide, by decide, by decide, by decide,
    mergePrompt_order_independent _ (by decide) _ _ (by decide) (by decide) (by decide)⟩

/-- Amended C6: on a well-formed template with a benign mapping, merging is
idempotent — merging the merge result again returns it unchanged.  The
claim's own proviso ("no value contains brace syntax matching a remaining
name") is not sufficient on the code: a dollar sequence such as `$&`
reinserts the replaced placeholder without any brace appearing in the
value. -/
theorem mergePrompt_idempotent_on_wf (segs : List Seg) (hw : ∀ s ∈ segs, segWF s = true)
    (l : List (String × String)) (hl : BenignEntries l) :
    mergePrompt (String.mk (render segs)) l
      = Except.ok (String.mk (render (segs.map (substAllSeg l)))) ∧
    mergePrompt (String.mk (render (segs.map (substAllSeg l)))) l
      = Except.ok (String.mk (render (segs.map (substAllSeg l)))) := by
  refine ⟨merge_substAll segs hw l hl, ?_⟩
  have hw' : ∀ s ∈ segs.map (substAllSeg l), segWF s = true := by
    intro s hs
    rcases List.mem_map.mp hs with ⟨t, ht, rfl⟩
    exact substAllSeg_preserves_WF l hl t (hw t ht)
  rw [merge_substAll _ hw' l hl, List.map_map]
  refine congrArg _ (congrArg _ (congrArg _ (List.map_congr_left (fun s _ => ?_))))
  exact substAllSeg_idem l s

/-- Witness for the amended C6: `"{a}!"` with a ↦ "1" merges to "1!" and
merging "1!" again returns it unchanged. -/
theorem mergePrompt_idempotent_on_wf_witness :
    (∀ s ∈ [Seg.tok ['a'], Seg.lit ['!']], segWF s = true) ∧
    BenignEntries [("a", "1")] ∧
    (mergePrompt (String.mk (render [Seg.tok ['a'], Seg.lit ['!']])) [("a", "1")]
      = Except.ok (String.mk (render
          ([Seg.tok ['a'], Seg.lit ['!']].map (substAllSeg [("a", "1")])))) ∧
    mergePrompt (String.mk (render
        ([Seg.tok ['a'], Seg.lit ['!']].map (substAllSeg [("a", "1")])))) [("a", "1")]
      = Except.ok (String.mk (render
          ([Seg.tok ['a'], Seg.lit ['!']].map (substAllSeg [("a", "1")]))))) :=
  ⟨by decide, by decide, mergePrompt_idempotent_on_wf _ (by decide) _ (by decide)⟩

/-! ### Save/load round-trip -/

theorem objInsert_fresh (m : List (String × String)) (k v : String)
    (h : ∀ p ∈ m, p.1 ≠ k) : objInsert m k v = m ++ [(k, v)] := by
  have hany : (m.any (fun p => p.1 == k)) = false := by
    rw [Bool.eq_false_iff]
    intro hab
    rcases List.any_eq_true.mp hab with ⟨p, hp, hpk⟩
    exact h p hp (by simpa using hpk)
  rw [objInsert, hany]
  simp

theorem foldl_objInsert_nodup :
    ∀ (ps acc : List (String × String)), ((acc ++ ps).map Prod.fst).Nodup →
      ps.foldl (fun m kv => objInsert m kv.1 kv.2) acc = acc ++ ps
  | [], acc, _ => by simp
  | kv :: ps', acc, h => by
    have hfresh : ∀ p ∈ acc, p.1 ≠ kv.1 := by
      intro p hp he
      have hd := List.disjoint_of_nodup_append (by simpa [List.map_append] using h)
      exact hd (List.mem_map_of_mem Prod.fst hp) (by rw [← he]; exact List.mem_cons_self _ _)
    rw [List.foldl_cons, objInsert_fresh acc kv.1 kv.2 hfresh]
    have h' : (((acc ++ [kv]) ++ ps').map Prod.fst).Nodup := by
      rw [List.append_assoc, List.singleton_append]
      exact h
    rw [foldl_objInsert_nodup ps' (acc ++ [kv]) h']
    rw [List.append_assoc, List.singleton_append]

theorem objOfPairs_of_nodup (ps : List (String × String))
    (h : (ps.map Prod.fst).Nodup) : objOfPairs ps = ps := by
  have h0 : (([] ++ ps).map Prod.fst).Nodup := by simpa using h
  have := foldl_objInsert_nodup ps [] h0
  simpa [objOfPairs] using this

theorem find?_append_fresh :
    ∀ (ps : List SavedPrompt) (r : SavedPrompt) (x : String),
      (∀ p ∈ ps, p.id ≠ x) → r.id = x →
      (ps ++ [r]).find? (fun p => p.id == x) = some r
  | [], r, x, _, hr => by simp [List.find?, hr]
  | p :: ps', r, x, h, hr => by
    have hp : (p.id == x) = false := by
      rw [Bool.eq_false_iff]
      intro hb
      exact h p (List.mem_cons_self _ _) (by simpa using hb)
    rw [List.cons_append]
    simp only [List.find?, hp]
    exact find?_append_fresh ps' r x (fun q hq => h q (List.mem_cons_of_mem _ hq)) hr

/-- C7: from an editor state whose variable list carries exactly the parsed
names of the prompt and whose value mapping covers every parsed name (the
invariant the reconciliation effect maintains; the `value` fields of the
variable list may be stale, since `handleVariableInputChange` updates only
the mapping and `handleSavePrompt` recomputes every saved value from the
mapping), saving under a fresh id with a non-blank name and then loading
that id restores the prompt text exactly and rebuilds a value mapping whose
lookups agree with the old mapping restricted to the names present in the
prompt at save time. -/
theorem save_load_roundtrip (st : EditorState) (newId : String)
    (hname : jsTrim st.newPromptName ≠ "")
    (hvars : st.«variables».map (fun v => v.name) = parseVariables st.prompt)
    (hid : ∀ p ∈ st.savedPrompts, p.id ≠ newId)
    (hcover : ∀ n ∈ parseVariables st.prompt, (lookupA st.variableValues n).isSome = true) :
    (handleLoadPrompt newId (handleSavePrompt newId st)).prompt = st.prompt ∧
    ∀ n, lookupA (handleLoadPrompt newId (handleSavePrompt newId st)).variableValues n
      = if n ∈ parseVariables st.prompt then lookupA st.variableValues n else none := by
  have hsave : handleSavePrompt newId st
      = { st with
          savedPrompts := st.savedPrompts ++
            [{ id := newId
               name := jsTrim st.newPromptName
               prompt := st.prompt
               «variables» := st.«variables».map
                 (fun v => { v with value := (lookupA st.variableValues v.name).getD "" }) }]
          newPromptName := "" } := by
    rw [handleSavePrompt, if_neg hname]
  have hrecvars : (st.«variables».map
      (fun v => { v with value := (lookupA st.variableValues v.name).getD "" }))
      = (parseVariables st.prompt).map
          (fun n => ({ name := n, value := (lookupA st.variableValues n).getD "" }
            : PromptVariable)) := by
    have h1 : st.«variables».map
        (fun v => { v with value := (lookupA st.variableValues v.name).getD "" })
        = st.«variables».map
            ((fun n => ({ name := n, value := (lookupA st.variableValues n).getD "" }
              : PromptVariable)) ∘ (fun v => v.name)) := rfl
    rw [h1, ← List.map_map, hvars]
  have hfind : ((handleSavePrompt newId st).savedPrompts).find? (fun p => p.id == newId)
      = some { id := newId
               name := jsTrim st.newPromptName
               prompt := st.prompt
               «variables» := st.«variables».map
                 (fun v => { v with value := (lookupA st.variableValues v.name).getD "" }) } := by
    rw [hsave]
    exact find?_append_fresh _ _ _ hid rfl
  have hload : handleLoadPrompt newId (handleSavePrompt newId st)
      = { handleSavePrompt newId st with
          prompt := st.prompt
          variableValues := objOfPairs
            (((parseVariables st.prompt).map
              (fun n => ({ name := n, value := (lookupA st.variableValues n).getD "" }
                : PromptVariable))).map (fun v => (v.name, v.value)))
          selectedSavedPromptId := newId } := by
    rw [handleLoadPrompt, hfind, hrecvars]
  have hpairs : ((parseVariables st.prompt).map
      (fun n => ({ name := n, value := (lookupA st.variableValues n).getD "" }
        : PromptVariable))).map (fun v => (v.name, v.value))
      = (parseVariables st.prompt).map
          (fun n => (n, (lookupA st.variableValues n).getD "")) := by
    rw [List.map_map]
    rfl
  have hnodup : (((parseVariables st.prompt).map
      (fun n => (n, (lookupA st.variableValues n).getD ""))).map Prod.fst).Nodup := by
    rw [List.map_map]
    have hid2 : ((parseVariables st.prompt).map
        (Prod.fst ∘ fun n => (n, (lookupA st.variableValues n).getD "")))
        = (parseVariables st.prompt).map id := rfl
    rw [hid2, List.map_id]
    exact dedupAux_nodup _ _
  rw [hload, hpairs]
  refine ⟨rfl, fun n => ?_⟩
  show lookupA (objOfPairs ((parseVariables st.prompt).map
    (fun n => (n, (lookupA st.variableValues n).getD "")))) n = _
  rw [objOfPairs_of_nodup _ hnodup, lookupA_map_self]
  by_cases hn : n ∈ parseVariables st.prompt
  · rw [if_pos hn, if_pos hn]
    cases ho : lookupA st.variableValues n with
    | none =>
      have := hcover n hn
      rw [ho] at this
      cases this
    | some v => rfl
  · rw [if_neg hn, if_neg hn]

/-- Witness for C7: the state after typing "1" into the input for "a" — the
mapping holds a ↦ "1" while the variable list's value field is still the
stale "" — saved as "n" under the fresh id "id1" and loaded back. -/
theorem save_load_roundtrip_witness :
    (jsTrim ("n" : String) ≠ "" ∧
      (⟨"{a}", [⟨"a", ""⟩], [("a", "1")], [], "", "n"⟩ : EditorState).«variables».map
          (fun v => v.name) = parseVariables "{a}" ∧
      (∀ p ∈ ([] : List SavedPrompt), p.id ≠ "id1") ∧
      (∀ n ∈ parseVariables "{a}", (lookupA [("a", "1")] n).isSome = true)) ∧
    ((handleLoadPrompt "id1" (handleSavePrompt "id1"
        ⟨"{a}", [⟨"a", ""⟩], [("a", "1")], [], "", "n"⟩)).prompt = "{a}" ∧
      ∀ n, lookupA (handleLoadPrompt "id1" (handleSavePrompt "id1"
          ⟨"{a}", [⟨"a", ""⟩], [("a", "1")], [], "", "n"⟩)).variableValues n
        = if n ∈ parseVariables "{a}" then lookupA [("a", "1")] n else none) :=
  ⟨⟨by decide, by decide, by decide, by decide⟩,
    save_load_roundtrip ⟨"{a}", [⟨"a", ""⟩], [("a", "1")], [], "", "n"⟩ "id1"
      (by decide) (by decide) (by decide) (by decide)⟩
